import Mathlib

set_option maxHeartbeats 2000000
set_option maxRecDepth 100000

/-!
Verification development for the cryptographic demo repository.

The repository has two components:

* `HashAvalanche` (avalanche analyzer): SHA-256 digests of a base input and
  five deterministic mutations of it, with bit-level Hamming distances
  between each mutated digest and the base digest.
* `SignatureDemo` (signature service): ECDSA P-256 key generation, signing
  and verification through the platform WebCrypto provider, plus hex
  encoding helpers.

The embedding below models JavaScript strings operationally: JS string
indexing, `length`, `substr` and `split('')` act on UTF-16 code units, so a
string is converted to its list of code units wherever the source indexes
into it.  Byte sequences (`Uint8Array`) are `List Nat` with every element
below 256.  SHA-256 is embedded as an executable pure function on byte
lists, using `Nat` arithmetic with explicit reduction modulo `2 ^ 32`.
-/

/-- UTF-8 encoding of a single Unicode scalar value, as produced by the
JavaScript `TextEncoder` for each character of its input. -/
def utf8EncodeChar (c : Char) : List Nat :=
  let n := c.toNat
  if n < 0x80 then [n]
  else if n < 0x800 then
    [0xC0 ||| (n >>> 6), 0x80 ||| (n &&& 0x3F)]
  else if n < 0x10000 then
    [0xE0 ||| (n >>> 12), 0x80 ||| ((n >>> 6) &&& 0x3F), 0x80 ||| (n &&& 0x3F)]
  else
    [0xF0 ||| (n >>> 18), 0x80 ||| ((n >>> 12) &&& 0x3F),
     0x80 ||| ((n >>> 6) &&& 0x3F), 0x80 ||| (n &&& 0x3F)]

/-- `new TextEncoder().encode(s)`: the UTF-8 bytes of `s`. -/
def utf8Encode (s : String) : List Nat :=
  (s.data.map utf8EncodeChar).flatten

/-- The UTF-16 code units of a string: this is the unit JavaScript string
`length`, indexing, `substr` and `split('')` operate on. -/
def utf16Units (s : String) : List Nat :=
  (s.data.map (fun c =>
    let n := c.toNat
    if n < 0x10000 then [n]
    else [0xD800 + (n - 0x10000) / 0x400, 0xDC00 + (n - 0x10000) % 0x400])).flatten

/-- JavaScript `String.prototype.padStart(w, c)` for a one-character pad. -/
def padStart (w : Nat) (c : Char) (s : String) : String :=
  String.mk (List.replicate (w - s.length) c ++ s.data)

/-- The code units JavaScript `parseInt` skips as leading white space. -/
def jsWhitespaceU (u : Nat) : Bool :=
  u = 9 || u = 10 || u = 11 || u = 12 || u = 13 || u = 32 ||
  u = 0xA0 || u = 0x1680 || (0x2000 ≤ u && u ≤ 0x200A) ||
  u = 0x2028 || u = 0x2029 || u = 0x202F || u = 0x205F || u = 0x3000 || u = 0xFEFF

/-- Value of a code unit as a base-16 digit (`0-9`, `a-f`, `A-F`). -/
def hexValU (u : Nat) : Option Nat :=
  if 48 ≤ u ∧ u ≤ 57 then some (u - 48)
  else if 97 ≤ u ∧ u ≤ 102 then some (u - 87)
  else if 65 ≤ u ∧ u ≤ 70 then some (u - 55)
  else none

/-- Accumulate the longest leading run of base-16 digits, as `parseInt` does
after trimming; stops at the first non-digit unit. -/
def hexAccum : List Nat → Nat → Nat
  | [], acc => acc
  | u :: rest, acc =>
    match hexValU u with
    | some d => hexAccum rest (acc * 16 + d)
    | none => acc

/-- JavaScript `parseInt(s, 16)` on the code units of `s`: trim leading white
space, read an optional sign, drop an optional `0x`/`0X` prefix, then parse
the longest prefix of hex digits; `none` is `NaN` (no digits found). -/
def parseIntHex (us : List Nat) : Option Int :=
  let t0 := us.dropWhile jsWhitespaceU
  let sign : Int := match t0.head? with | some 45 => -1 | _ => 1
  let t1 := match t0.head? with
    | some 45 => t0.tail
    | some 43 => t0.tail
    | _ => t0
  let t2 := match t1 with
    | 48 :: 120 :: rest => rest
    | 48 :: 88 :: rest => rest
    | _ => t1
  match t2.head? with
  | some u =>
    match hexValU u with
    | some _ => some (sign * (hexAccum t2 0 : Int))
    | none => none
  | none => none

/-- Storing a `parseInt` result into a `Uint8Array` slot: `NaN` becomes `0`,
any integer is taken modulo 256 (JavaScript `ToUint8`). -/
def toUint8 (o : Option Int) : Nat :=
  match o with
  | none => 0
  | some v => (v % 256).toNat

/-- JavaScript `Number.prototype.toString(2)` of a `parseInt` result:
`NaN` prints as `"NaN"`, integers in binary with a sign. -/
def jsBinary (o : Option Int) : String :=
  match o with
  | none => "NaN"
  | some v => (if v < 0 then "-" else "") ++ String.mk (Nat.toDigits 2 v.natAbs)

/-- `b.toString(16).padStart(2, '0')`: one byte as two lowercase hex
characters (`Nat.toDigits 16` is the lowercase base-16 rendering). -/
def byteHex (n : Nat) : String :=
  padStart 2 '0' (String.mk (Nat.toDigits 16 n))

/-- `bufferToHex` (SignatureDemo.tsx): each byte rendered as two lowercase
hex characters, concatenated with no separators. -/
def bufferToHex (buf : List Nat) : String :=
  String.join (buf.map byteHex)

/-- `hexToBuffer` (SignatureDemo.tsx).  `new Uint8Array(hex.length / 2)`
truncates a fractional length through `ToIndex` (ES2017 and later), so the
buffer always has `⌊length / 2⌋` bytes and the constructor never throws;
on an odd-length string the loop's final iteration writes past the end of
the typed array, which is silently ignored.  Each in-range two-code-unit
slice is parsed with `parseInt(·, 16)` and stored, `NaN` storing as `0`. -/
def hexToBuffer (hex : String) : List Nat :=
  let u := utf16Units hex
  (List.range (u.length / 2)).map (fun i =>
    toUint8 (parseIntHex ((u.drop (2 * i)).take 2)))

/-- `hexToBits` (HashAvalanche): `split('')` on UTF-16 code units, each unit
parsed as a base-16 digit, rendered in binary and left-padded to width 4. -/
def hexToBits (hex : String) : String :=
  String.join ((utf16Units hex).map (fun u =>
    padStart 4 '0' (jsBinary (parseIntHex [u]))))

/-- `hamming` (HashAvalanche): the loop counts indices below the shorter
length at which the two strings hold different code units. -/
def hamming (a b : String) : Nat :=
  let ua := utf16Units a
  let ub := utf16Units b
  ((List.range (min ua.length ub.length)).filter
    (fun i => ua.getD i 0 != ub.getD i 0)).length

/-! ## SHA-256

Executable embedding of the fixed 256-bit digest the source obtains from
`crypto.subtle.digest('SHA-256', bytes)` (FIPS 180-4), on byte lists, with
word arithmetic carried out in `Nat` modulo `2 ^ 32`. -/

/-- Reduce to a 32-bit word. -/
def w32 (n : Nat) : Nat := n % 4294967296

/-- Rotate a 32-bit word right by `n`. -/
def rotr (n x : Nat) : Nat := w32 ((x >>> n) ||| (x <<< (32 - n)))

def bigSigma0 (x : Nat) : Nat := rotr 2 x ^^^ rotr 13 x ^^^ rotr 22 x

def bigSigma1 (x : Nat) : Nat := rotr 6 x ^^^ rotr 11 x ^^^ rotr 25 x

def smallSigma0 (x : Nat) : Nat := rotr 7 x ^^^ rotr 18 x ^^^ (x >>> 3)

def smallSigma1 (x : Nat) : Nat := rotr 17 x ^^^ rotr 19 x ^^^ (x >>> 10)

/-- `Ch(x, y, z)`, with the complement taken inside 32 bits. -/
def chF (x y z : Nat) : Nat := (x &&& y) ^^^ ((x ^^^ 0xFFFFFFFF) &&& z)

def majF (x y z : Nat) : Nat := (x &&& y) ^^^ (x &&& z) ^^^ (y &&& z)

/-- The 64 SHA-256 round constants of FIPS 180-4 (the fractional parts of
the cube roots of the first 64 primes), written in decimal. -/
def sha256K : List Nat :=
  [1116352408, 1899447441, 3049323471, 3921009573, 961987163, 1508970993,
   2453635748, 2870763221, 3624381080, 310598401, 607225278, 1426881987,
   1925078388, 2162078206, 2614888103, 3248222580, 3835390401, 4022224774,
   264347078, 604807628, 770255983, 1249150122, 1555081692, 1996064986,
   2554220882, 2821834349, 2952996808, 3210313671, 3336571891, 3584528711,
   113926993, 338241895, 666307205, 773529912, 1294757372, 1396182291,
   1695183700, 1986661051, 2177026350, 2456956037, 2730485921, 2820302411,
   3259730800, 3345764771, 3516065817, 3600352804, 4094571909, 275423344,
   430227734, 506948616, 659060556, 883997877, 958139571, 1322822218,
   1537002063, 1747873779, 1955562222, 2024104815, 2227730452, 2361852424,
   2428436474, 2756734187, 3204031479, 3329325298]

/-- The initial SHA-256 hash value of FIPS 180-4 (the fractional parts of
the square roots of the first 8 primes), written in decimal. -/
def sha256H0 : List Nat :=
  [1779033703, 3144134277, 1013904242, 2773480762,
   1359893119, 2600822924, 528734635, 1541459225]

/-- The 16 big-endian 32-bit words of one 64-byte block. -/
def wordsOfBlock (block : List Nat) : List Nat :=
  (List.range 16).map (fun i =>
    block.getD (4 * i) 0 * 16777216 + block.getD (4 * i + 1) 0 * 65536 +
    block.getD (4 * i + 2) 0 * 256 + block.getD (4 * i + 3) 0)

/-- Extend the message schedule by `t` further words. -/
def scheduleExt : Nat → List Nat → List Nat
  | 0, w => w
  | t + 1, w =>
    let n := w.length
    let x := w32 (smallSigma1 (w.getD (n - 2) 0) + w.getD (n - 7) 0 +
                  smallSigma0 (w.getD (n - 15) 0) + w.getD (n - 16) 0)
    scheduleExt t (w ++ [x])

/-- The eight working variables of the compression function. -/
structure Sha256State where
  a : Nat
  b : Nat
  c : Nat
  d : Nat
  e : Nat
  f : Nat
  g : Nat
  h : Nat

/-- One round of the SHA-256 compression function. -/
def roundStep (s : Sha256State) (kw : Nat × Nat) : Sha256State :=
  let t1 := w32 (s.h + bigSigma1 s.e + chF s.e s.f s.g + kw.1 + kw.2)
  let t2 := w32 (bigSigma0 s.a + majF s.a s.b s.c)
  ⟨w32 (t1 + t2), s.a, s.b, s.c, w32 (s.d + t1), s.e, s.f, s.g⟩

/-- Compress one 64-byte block into the running hash value. -/
def compressBlock (H : List Nat) (block : List Nat) : List Nat :=
  let w := scheduleExt 48 (wordsOfBlock block)
  let s0 : Sha256State :=
    ⟨H.getD 0 0, H.getD 1 0, H.getD 2 0, H.getD 3 0,
     H.getD 4 0, H.getD 5 0, H.getD 6 0, H.getD 7 0⟩
  let s := (sha256K.zip w).foldl roundStep s0
  [w32 (H.getD 0 0 + s.a), w32 (H.getD 1 0 + s.b), w32 (H.getD 2 0 + s.c),
   w32 (H.getD 3 0 + s.d), w32 (H.getD 4 0 + s.e), w32 (H.getD 5 0 + s.f),
   w32 (H.getD 6 0 + s.g), w32 (H.getD 7 0 + s.h)]

/-- The bit length of the message as eight big-endian bytes. -/
def lengthBytes (n : Nat) : List Nat :=
  (List.range 8).map (fun i => (n >>> (8 * (7 - i))) % 256)

/-- SHA-256 padding: a `0x80` byte, zeros to 56 mod 64, then the 64-bit
big-endian bit length. -/
def sha256Pad (msg : List Nat) : List Nat :=
  let L := msg.length
  msg ++ [0x80] ++ List.replicate ((64 - (L + 9) % 64) % 64) 0 ++ lengthBytes (8 * L)

/-- Split into 64-byte blocks, driven by the known block count. -/
def chunks64 : Nat → List Nat → List (List Nat)
  | 0, _ => []
  | k + 1, l => l.take 64 :: chunks64 k (l.drop 64)

/-- The SHA-256 digest of a byte list: 32 bytes. -/
def sha256 (msg : List Nat) : List Nat :=
  let padded := sha256Pad msg
  let Hf := (chunks64 (padded.length / 64) padded).foldl compressBlock sha256H0
  (Hf.map (fun x => [(x >>> 24) % 256, (x >>> 16) % 256, (x >>> 8) % 256, x % 256])).flatten

/-- `sha256HexFromBytes` (HashAvalanche): the digest bytes, each rendered as
two lowercase hex characters and joined without separators. -/
def sha256HexFromBytes (bytes : List Nat) : String :=
  String.join ((sha256 bytes).map byteHex)

/-- `sha256Hex` (HashAvalanche): digest of the UTF-8 encoding of a string. -/
def sha256Hex (input : String) : String :=
  sha256HexFromBytes (utf8Encode input)

/-- `mutateByteFlip` (HashAvalanche): XOR the byte at `byteIndex % length`
with `bitMask`; the store into the `Uint8Array` reduces modulo 256.  The
empty encoding is returned unchanged. -/
def mutateByteFlip (input : String) (byteIndex : Nat) (bitMask : Nat) : List Nat :=
  let enc := utf8Encode input
  if enc.length = 0 then enc
  else
    enc.set (byteIndex % enc.length)
      ((enc.getD (byteIndex % enc.length) 0 ^^^ bitMask) % 256)

/-- `mutateCharChange` (HashAvalanche): overwrite the byte at
`(index + length) % length` with the first UTF-8 byte of `newChar`.  When
`index + length` is still negative the JavaScript remainder is negative and
the typed-array store at a negative index is a no-op; an absent first byte
stores `undefined`, which a `Uint8Array` coerces to `0`. -/
def mutateCharChange (input : String) (index : Int) (newChar : String) : List Nat :=
  let enc := utf8Encode input
  if enc.length = 0 then enc
  else
    let i : Int := index + enc.length
    if 0 ≤ i then
      enc.set ((i % (enc.length : Int)).toNat) ((utf8Encode newChar).headD 0)
    else enc

/-- A named transformation of the base input's bytes. -/
structure Variant where
  name : String
  bytes : List Nat

/-- The six variants built inside `run` (HashAvalanche lines 54-61), in
source order. -/
def buildVariants (input : String) : List Variant :=
  [⟨"original", utf8Encode input⟩,
   ⟨"append space", utf8Encode (input ++ " ")⟩,
   ⟨"change first char", mutateCharChange input 0 "Z"⟩,
   ⟨"flip one bit in first byte", mutateByteFlip input 0 1⟩,
   ⟨"flip 0x80 bit in first byte", mutateByteFlip input 0 0x80⟩,
   ⟨"change last char", mutateCharChange input (-1) "z"⟩]

/-- One row of the computed results: name, digest hex, digest bits, bytes. -/
structure DigestResult where
  name : String
  hex : String
  bits : String
  bytes : List Nat

/-- `run` (HashAvalanche): digest every variant in order and record the hex
and bit renderings alongside the variant's name and bytes. -/
def run (input : String) : List DigestResult :=
  (buildVariants input).map (fun v =>
    ⟨v.name, sha256HexFromBytes v.bytes, hexToBits (sha256HexFromBytes v.bytes), v.bytes⟩)

/-- `((dist / 256) * 100).toFixed(1)`.  For a distance of at most 256 the
value `dist * 100 / 256` is an exact binary double (denominator `2 ^ 8`,
small numerator), so `toFixed(1)` is the exact decimal rounding of the
rational `dist * 1000 / 256` to an integer, ties toward the larger value:
`(dist * 250 + 32) / 64` in integer arithmetic. -/
def toFixedOne (dist : Nat) : String :=
  let scaled := (dist * 250 + 32) / 64
  toString (scaled / 10) ++ "." ++ toString (scaled % 10)

/-- The comparison table rendered by `HashAvalanche` (lines 74 and 101-120):
per row the name, the hex digest, and for every row after the first the
Hamming distance against the first row's bits together with the rendered
cell text; the first row's comparison cell is the bare string `"-"`.
`baseBits` falls back to the empty string for an empty result list, and an
empty `baseBits` short-circuits the distance to `0` (JavaScript truthiness
on lines 74 and 111). -/
def comparisonTable (input : String) : List (String × String × Option (Nat × String)) :=
  let results := run input
  let baseBits := if results.length ≠ 0 then (results.headD ⟨"", "", "", []⟩).bits else ""
  results.enum.map (fun p =>
    if p.1 = 0 then (p.2.name, p.2.hex, none)
    else
      let dist := if baseBits ≠ "" then hamming baseBits p.2.bits else 0
      (p.2.name, p.2.hex,
        some (dist, toString dist ++ "/256 bits changed (" ++ toFixedOne dist ++ "%)")))

/-! ## Signature service (SignatureDemo.tsx)

Key generation, signing and verification are calls into the platform's
WebCrypto provider (`crypto.subtle`), which is outside this repository.
The provider is therefore abstracted as a capability record, exactly as the
specification's design notes direct, and the repository's wrappers are
embedded over an arbitrary provider. -/

/-- The key pair interface of SignatureDemo.tsx. -/
structure KeyPair (Priv Pub : Type) where
  privateKey : Priv
  publicKey : Pub

/-- Modelled from the spec: the platform WebCrypto ECDSA P-256 provider
(`crypto.subtle.generateKey` / `sign` / `verify`), which is not part of the
repository's sources.  A provider supplies a generated key pair, a signing
function over message bytes, and a boolean verification function. -/
structure SignatureProvider (Priv Pub Sig : Type) where
  generateKey : KeyPair Priv Pub
  sign : List Nat → Priv → Sig
  verify : List Nat → Sig → Pub → Bool

/-- Modelled from the spec: the sign/verify correctness invariant of the
fixed signature scheme — a signature produced by `sign(m, sk)` verifies
successfully under the matching public key, deterministically. -/
def SchemeCorrect {Priv Pub Sig : Type} (P : SignatureProvider Priv Pub Sig) : Prop :=
  ∀ msg : List Nat,
    P.verify msg (P.sign msg P.generateKey.privateKey) P.generateKey.publicKey = true

/-- `generateKeyPair` (SignatureDemo.tsx): request a pair from the provider
and repackage the two keys. -/
def generateKeyPair {Priv Pub Sig : Type} (P : SignatureProvider Priv Pub Sig) :
    KeyPair Priv Pub :=
  { privateKey := P.generateKey.privateKey, publicKey := P.generateKey.publicKey }

/-- `signMessage` (SignatureDemo.tsx): sign the UTF-8 bytes of the message. -/
def signMessage {Priv Pub Sig : Type} (P : SignatureProvider Priv Pub Sig)
    (message : String) (privateKey : Priv) : Sig :=
  P.sign (utf8Encode message) privateKey

/-- `verifySignature` (SignatureDemo.tsx): verify the signature against the
UTF-8 bytes of the message and the public key. -/
def verifySignature {Priv Pub Sig : Type} (P : SignatureProvider Priv Pub Sig)
    (message : String) (signature : Sig) (publicKey : Pub) : Bool :=
  P.verify (utf8Encode message) signature publicKey

/-! ## Specification-side formulations

Definitions below follow the specification's words, to be compared against
the source-derived definitions above. -/

/-- The 22 characters JavaScript `parseInt(·, 16)` accepts as hex digits; a
"hex string" in the specification's sense is a string of these. -/
def hexDigitChars : List Char :=
  "0123456789abcdefABCDEF".data

/-- Lowercase hex digits: what the fixed-width byte rendering may emit. -/
def isLowerHexChar (c : Char) : Bool :=
  c.isDigit || ('a' ≤ c && c ≤ 'f')

/-- The value of a hex digit character. -/
def hexVal (c : Char) : Nat := (hexValU c.toNat).getD 0

/-- Specification formulation of a hex digit's 4-bit expansion: the four
bits of `v`, most significant first, zero-padded to width 4. -/
def bits4 (v : Nat) : String :=
  String.mk ((List.range 4).map (fun i => if v >>> (3 - i) % 2 = 1 then '1' else '0'))

/-! ## Helper lemmas -/

theorem foldl_append_data (l : List String) :
    ∀ s : String, (l.foldl (fun r t => r ++ t) s).data =
      s.data ++ (l.map String.data).flatten := by
  induction l with
  | nil => intro s; simp
  | cons x xs ih => intro s; simp [List.foldl_cons, ih]

/-- The characters of a joined string are the concatenated characters. -/
theorem data_join (l : List String) :
    (String.join l).data = (l.map String.data).flatten := by
  have h := foldl_append_data l ""
  simpa [String.join] using h

/-- Length of a concatenation of uniformly sized chunks. -/
theorem flatten_const_length {α : Type} (k : Nat) (L : List (List α))
    (hL : ∀ x ∈ L, x.length = k) : L.flatten.length = k * L.length := by
  induction L with
  | nil => simp
  | cons x xs ih =>
    have h1 := hL x (List.mem_cons_self _ _)
    have h2 := ih (fun y hy => hL y (List.mem_cons_of_mem _ hy))
    simp only [List.flatten_cons, List.length_append, List.length_cons, h1, h2,
      Nat.mul_succ]
    omega

/-- Slicing a concatenation of uniformly sized chunks recovers a chunk. -/
theorem flatten_const_slice {α : Type} (k : Nat) :
    ∀ (L : List (List α)) (i : Nat), (∀ x ∈ L, x.length = k) → i < L.length →
      (L.flatten.drop (k * i)).take k = L.getD i [] := by
  intro L
  induction L with
  | nil => intro i _ hi; simp at hi
  | cons x xs ih =>
    intro i hx hi
    have h1 := hx x (List.mem_cons_self _ _)
    cases i with
    | zero =>
      simp only [Nat.mul_zero, List.flatten_cons, List.drop_zero, List.getD_cons_zero,
        List.take_append_eq_append_take, h1, List.take_length, Nat.sub_self,
        List.take_zero, List.append_nil]
      rw [← h1, List.take_length]
    | succ j =>
      have hkj : k * (j + 1) = x.length + k * j := by rw [h1]; ring
      rw [List.flatten_cons, hkj, ← List.drop_drop, List.drop_left,
        List.getD_cons_succ]
      exact ih j (fun y hy => hx y (List.mem_cons_of_mem _ hy)) (by simpa using hi)

theorem utf16Units_ascii_aux : ∀ l : List Char, (∀ c ∈ l, c.toNat < 0x10000) →
    utf16Units (String.mk l) = l.map Char.toNat := by
  intro l
  induction l with
  | nil => intro _; rfl
  | cons c cs ih =>
    intro hl
    have hc := hl c (List.mem_cons_self _ _)
    have ih' := ih (fun d hd => hl d (List.mem_cons_of_mem _ hd))
    unfold utf16Units at ih' ⊢
    simp only [List.map_cons, List.flatten_cons]
    rw [if_pos hc]
    simp [ih']

/-- For strings without astral characters (in particular any ASCII string),
the UTF-16 code units are just the character code points. -/
theorem utf16Units_ascii (s : String) (hs : ∀ c ∈ s.data, c.toNat < 0x10000) :
    utf16Units s = s.data.map Char.toNat := by
  obtain ⟨l⟩ := s
  exact utf16Units_ascii_aux l hs

/-- Everything needed about the two-character rendering of one byte, decided
over all 256 byte values: the rendering is two characters, all lowercase
hex digits with sub-astral code points, and `parseInt(·, 16)` inverts it. -/
theorem byteHex_facts : ∀ n : Fin 256,
    (byteHex n.val).data.length = 2 ∧
    (∀ c ∈ (byteHex n.val).data,
      isLowerHexChar c = true ∧ c ∈ hexDigitChars ∧ c.toNat < 0x10000) ∧
    toUint8 (parseIntHex ((byteHex n.val).data.map Char.toNat)) = n.val := by
  decide

/-- Everything needed about the 4-bit expansion of one hex digit character,
decided over the 22 hex digit characters: the expansion has four characters
and matches the specification's most-significant-bit-first formulation. -/
theorem hexCharBits_facts : ∀ c ∈ hexDigitChars,
    (padStart 4 '0' (jsBinary (parseIntHex [c.toNat]))).data.length = 4 ∧
    padStart 4 '0' (jsBinary (parseIntHex [c.toNat])) = bits4 (hexVal c) ∧
    c.toNat < 0x10000 := by
  decide

theorem char_toNat_lt (c : Char) : c.toNat < 0x110000 := by
  rcases c.valid with h | ⟨_, h⟩
  · calc c.toNat = c.val.toNat := rfl
    _ < 0xd800 := h
    _ < 0x110000 := by norm_num
  · exact h

/-- Every byte the UTF-8 encoder emits is below 256. -/
theorem utf8EncodeChar_lt (c : Char) : ∀ x ∈ utf8EncodeChar c, x < 256 := by
  intro x hx
  have hc := char_toNat_lt c
  have hdiv6 : c.toNat >>> 6 = c.toNat / 64 := Nat.shiftRight_eq_div_pow _ _
  have hdiv12 : c.toNat >>> 12 = c.toNat / 4096 := Nat.shiftRight_eq_div_pow _ _
  have hdiv18 : c.toNat >>> 18 = c.toNat / 262144 := Nat.shiftRight_eq_div_pow _ _
  have hand : ∀ m : Nat, m &&& 0x3F < 256 :=
    fun m => Nat.lt_of_le_of_lt Nat.and_le_right (by norm_num)
  have hor : ∀ a b : Nat, a < 256 → b < 256 → (a ||| b) < 256 := by
    intro a b ha hb
    have := Nat.or_lt_two_pow (n := 8) (by simpa using ha) (by simpa using hb)
    simpa using this
  simp only [utf8EncodeChar] at hx
  split at hx
  · simp at hx
    omega
  · split at hx
    · simp at hx
      rcases hx with rfl | rfl
      · exact hor _ _ (by norm_num) (by omega)
      · exact hor _ _ (by norm_num) (hand _)
    · split at hx
      · simp at hx
        rcases hx with rfl | rfl | rfl
        · exact hor _ _ (by norm_num) (by omega)
        · exact hor _ _ (by norm_num) (hand _)
        · exact hor _ _ (by norm_num) (hand _)
      · simp at hx
        rcases hx with rfl | rfl | rfl | rfl
        · exact hor _ _ (by norm_num) (by omega)
        · exact hor _ _ (by norm_num) (hand _)
        · exact hor _ _ (by norm_num) (hand _)
        · exact hor _ _ (by norm_num) (hand _)

/-- Every byte of a UTF-8 encoded string is below 256. -/
theorem utf8Encode_lt (s : String) : ∀ x ∈ utf8Encode s, x < 256 := by
  intro x hx
  simp only [utf8Encode, List.mem_flatten, List.mem_map] at hx
  obtain ⟨l, ⟨c, _, rfl⟩, hxl⟩ := hx
  exact utf8EncodeChar_lt c x hxl

theorem compressBlock_length (H block : List Nat) : (compressBlock H block).length = 8 := by
  simp only [compressBlock, List.length_cons, List.length_nil]

theorem foldl_compress_length :
    ∀ (blocks : List (List Nat)) (H : List Nat), H.length = 8 →
      (blocks.foldl compressBlock H).length = 8 := by
  intro blocks
  induction blocks with
  | nil => intro H hH; simpa using hH
  | cons b bs ih => intro H _; exact ih _ (compressBlock_length _ _)

theorem string_length_eq_data (s : String) : s.length = s.data.length := rfl

/-- A SHA-256 digest is exactly 32 bytes. -/
theorem sha256_length (msg : List Nat) : (sha256 msg).length = 32 := by
  unfold sha256
  rw [flatten_const_length 4]
  · rw [List.length_map, foldl_compress_length _ sha256H0 (by rfl)]
  · intro x hx
    simp only [List.mem_map] at hx
    obtain ⟨w, _, rfl⟩ := hx
    rfl

/-- Every SHA-256 digest byte is below 256. -/
theorem sha256_bytes_lt (msg : List Nat) : ∀ x ∈ sha256 msg, x < 256 := by
  intro x hx
  unfold sha256 at hx
  simp only [List.mem_flatten, List.mem_map] at hx
  obtain ⟨l, ⟨w, _, rfl⟩, hxl⟩ := hx
  simp only [List.mem_cons, List.not_mem_nil, or_false] at hxl
  rcases hxl with rfl | rfl | rfl | rfl
  all_goals exact Nat.mod_lt _ (by norm_num)

theorem sha256HexFromBytes_data (bytes : List Nat) :
    (sha256HexFromBytes bytes).data =
      ((sha256 bytes).map (fun b => (byteHex b).data)).flatten := by
  unfold sha256HexFromBytes
  rw [data_join, List.map_map]
  rfl

/-- Every character of a digest's hex rendering is a lowercase hex digit. -/
theorem sha256Hex_chars (bytes : List Nat) :
    ∀ c ∈ (sha256HexFromBytes bytes).data,
      isLowerHexChar c = true ∧ c ∈ hexDigitChars ∧ c.toNat < 0x10000 := by
  intro c hc
  rw [sha256HexFromBytes_data] at hc
  simp only [List.mem_flatten, List.mem_map] at hc
  obtain ⟨l, ⟨b, hb, rfl⟩, hcl⟩ := hc
  exact (byteHex_facts ⟨b, sha256_bytes_lt bytes b hb⟩).2.1 c hcl

/-- A digest's hex rendering is exactly 64 characters. -/
theorem sha256HexFromBytes_length (bytes : List Nat) :
    (sha256HexFromBytes bytes).length = 64 := by
  rw [string_length_eq_data, sha256HexFromBytes_data, flatten_const_length 2]
  · rw [List.length_map, sha256_length]
  · intro x hx
    simp only [List.mem_map] at hx
    obtain ⟨b, hb, rfl⟩ := hx
    exact (byteHex_facts ⟨b, sha256_bytes_lt bytes b hb⟩).1

/-- On hex strings, `hexToBits` is the specification's digit-by-digit 4-bit
expansion, and its length is four characters per input character. -/
theorem hexToBits_hex (s : String) (hs : ∀ c ∈ s.data, c ∈ hexDigitChars) :
    hexToBits s = String.join (s.data.map (fun c => bits4 (hexVal c))) ∧
    (hexToBits s).length = 4 * s.length := by
  have hlt : ∀ c ∈ s.data, c.toNat < 0x10000 :=
    fun c hc => (hexCharBits_facts c (hs c hc)).2.2
  have heq : hexToBits s = String.join (s.data.map (fun c => bits4 (hexVal c))) := by
    unfold hexToBits
    rw [utf16Units_ascii s hlt, List.map_map]
    congr 1
    refine List.map_congr_left ?_
    intro c hc
    exact (hexCharBits_facts c (hs c hc)).2.1
  refine ⟨heq, ?_⟩
  rw [string_length_eq_data, heq, data_join, List.map_map, flatten_const_length 4]
  · rw [List.length_map, string_length_eq_data s]
  · intro x hx
    simp only [List.mem_map, Function.comp] at hx
    obtain ⟨c, hc, rfl⟩ := hx
    simp [bits4]

theorem utf8Encode_append (s t : String) :
    utf8Encode (s ++ t) = utf8Encode s ++ utf8Encode t := by
  unfold utf8Encode
  rw [String.data_append, List.map_append, List.flatten_append]

theorem mutateCharChange_zero (input newChar : String) :
    mutateCharChange input 0 newChar =
      (utf8Encode input).set 0 ((utf8Encode newChar).headD 0) := by
  simp only [mutateCharChange]
  by_cases h : (utf8Encode input).length = 0
  · rw [if_pos h, List.length_eq_zero.mp h]
    rfl
  · rw [if_neg h, if_pos (by positivity)]
    congr 1
    rw [Int.zero_add, Int.emod_self]
    rfl

theorem mutateCharChange_neg_one (input newChar : String) :
    mutateCharChange input (-1) newChar =
      (utf8Encode input).set ((utf8Encode input).length - 1)
        ((utf8Encode newChar).headD 0) := by
  simp only [mutateCharChange]
  by_cases h : (utf8Encode input).length = 0
  · rw [if_pos h, List.length_eq_zero.mp h]
    rfl
  · have hlen : 1 ≤ (utf8Encode input).length := Nat.one_le_iff_ne_zero.mpr h
    have h0 : (0 : Int) ≤ -1 + ((utf8Encode input).length : Int) := by omega
    rw [if_neg h, if_pos h0]
    congr 1
    rw [Int.emod_eq_of_lt h0 (by omega)]
    omega

theorem mutateByteFlip_zero (input : String) (mask : Nat) (hm : mask < 256) :
    mutateByteFlip input 0 mask =
      (utf8Encode input).set 0 ((utf8Encode input).headD 0 ^^^ mask) := by
  simp only [mutateByteFlip]
  by_cases h : (utf8Encode input).length = 0
  · rw [if_pos h, List.length_eq_zero.mp h]
    rfl
  · rw [if_neg h, Nat.zero_mod]
    obtain ⟨y, ys, hys⟩ : ∃ y ys, utf8Encode input = y :: ys := by
      cases hE : utf8Encode input with
      | nil => rw [hE] at h; simp at h
      | cons y ys => exact ⟨y, ys, rfl⟩
    rw [hys]
    simp only [List.getD_cons_zero, List.headD_cons]
    congr 1
    have hy : y < 256 := utf8Encode_lt input y (by rw [hys]; exact List.mem_cons_self _ _)
    have hxor : y ^^^ mask < 256 := by
      have := Nat.xor_lt_two_pow (n := 8) (by simpa using hy) (by simpa using hm)
      simpa using this
    exact Nat.mod_eq_of_lt hxor

/-- C5: for every input string, `run` returns exactly 6 results, in the
fixed order original / append space / change first char / flip `0x01` /
flip `0x80` / change last char, whose byte sequences are: the unmodified
UTF-8 bytes; the bytes with one trailing space (byte 32) appended; byte 0
replaced by 90 (the UTF-8 encoding of `'Z'`); byte 0 XORed with `0x01`;
byte 0 XORed with `0x80`; and the last byte replaced by 122 (the UTF-8
encoding of `'z'`).  On the empty input every `set` is a no-op, matching
the degenerate behaviour of the mutation helpers. -/
theorem c5_run_structure (input : String) :
    (run input).length = 6 ∧
    (run input).map (fun r => (r.name, r.bytes)) =
      [("original", utf8Encode input),
       ("append space", utf8Encode input ++ [32]),
       ("change first char", (utf8Encode input).set 0 90),
       ("flip one bit in first byte",
         (utf8Encode input).set 0 ((utf8Encode input).headD 0 ^^^ 0x01)),
       ("flip 0x80 bit in first byte",
         (utf8Encode input).set 0 ((utf8Encode input).headD 0 ^^^ 0x80)),
       ("change last char",
         (utf8Encode input).set ((utf8Encode input).length - 1) 122)] := by
  refine ⟨rfl, ?_⟩
  simp only [run, buildVariants, List.map_cons, List.map_nil]
  rw [utf8Encode_append, mutateCharChange_zero, mutateCharChange_neg_one,
    mutateByteFlip_zero input 1 (by norm_num),
    mutateByteFlip_zero input 0x80 (by norm_num)]
  have h1 : utf8Encode " " = [32] := rfl
  have h2 : (utf8Encode "Z").headD 0 = 90 := rfl
  have h3 : (utf8Encode "z").headD 0 = 122 := rfl
  rw [h1, h2, h3]

/-- C10: on every non-empty input, each mutation helper preserves the
length of the UTF-8 encoding and leaves every byte other than the single
targeted index unchanged; the helpers are pure (the source copies its
buffer before writing, so the embedding is a function of the input). -/
theorem c10_mutation_frame (input : String) (byteIndex bitMask : Nat) (index : Int)
    (newChar : String) (hne : utf8Encode input ≠ []) :
    (mutateByteFlip input byteIndex bitMask).length = (utf8Encode input).length ∧
    (∀ j, j ≠ byteIndex % (utf8Encode input).length →
      (mutateByteFlip input byteIndex bitMask)[j]? = (utf8Encode input)[j]?) ∧
    (mutateCharChange input index newChar).length = (utf8Encode input).length ∧
    (∀ j, j ≠ ((index + (utf8Encode input).length) %
          ((utf8Encode input).length : Int)).toNat →
      (mutateCharChange input index newChar)[j]? = (utf8Encode input)[j]?) := by
  have hlen : ¬ ((utf8Encode input).length = 0) := fun h => hne (List.length_eq_zero.mp h)
  refine ⟨?_, ?_, ?_, ?_⟩
  · simp only [mutateByteFlip, if_neg hlen, List.length_set]
  · intro j hj
    simp only [mutateByteFlip, if_neg hlen]
    exact List.getElem?_set_ne (Ne.symm hj)
  · simp only [mutateCharChange, if_neg hlen]
    split
    · rw [List.length_set]
    · rfl
  · intro j hj
    simp only [mutateCharChange, if_neg hlen]
    split
    · exact List.getElem?_set_ne (Ne.symm hj)
    · rfl

theorem c10_mutation_frame_witness :
    utf8Encode "ab" ≠ [] ∧
    (mutateByteFlip "ab" 0 1).length = (utf8Encode "ab").length ∧
    (mutateByteFlip "ab" 0 1)[1]? = (utf8Encode "ab")[1]? ∧
    (mutateCharChange "ab" (-1) "z")[0]? = (utf8Encode "ab")[0]? := by
  have h := c10_mutation_frame "ab" 0 1 (-1) "z" (by decide)
  exact ⟨by decide, h.1, h.2.1 1 (by decide), h.2.2.2 0 (by decide)⟩

theorem utf16Units_append (s t : String) :
    utf16Units (s ++ t) = utf16Units s ++ utf16Units t := by
  unfold utf16Units
  rw [String.data_append, List.map_append, List.flatten_append]

/-- C3 counterexample: the claim says `hexToBytes` fails on every
odd-length string and on every string containing a non-hex character, but
the source never fails at all.  On the odd-length input `"abc"` the
`Uint8Array` length `1.5` truncates to `1` (`ToIndex`, ES2017+), the final
out-of-bounds store is ignored, and the result is the single byte `[171]`;
on `"zz"` the `parseInt` result `NaN` stores as `0`, giving `[0]`, even
though `'z'` is not a hex digit. -/
theorem c3_never_fails_counterexample :
    hexToBuffer "abc" = [171] ∧ hexToBuffer "zz" = [0] ∧ ¬ ('z' ∈ hexDigitChars) := by
  refine ⟨?_, ?_, ?_⟩
  · decide
  · decide
  · decide

/-- C3 (amended): `hexToBytes` never fails.  On every input it returns
`⌊length / 2⌋` bytes, and a dangling final character on an odd-length
input is dropped: appending one (sub-astral) character to any even-length
string leaves the result unchanged.  In particular every valid hex string
— and every other string — succeeds, unparseable two-character chunks
decoding to `0`. -/
theorem c3_hex_failure_amended :
    (∀ s : String, (hexToBuffer s).length = (utf16Units s).length / 2) ∧
    (∀ (t : String) (c : Char), c.toNat < 0x10000 →
      (utf16Units t).length % 2 = 0 →
      hexToBuffer (t ++ String.mk [c]) = hexToBuffer t) := by
  constructor
  · intro s
    simp [hexToBuffer]
  · intro t c hc heven
    have hdata : (String.mk [c]).data = [c] := rfl
    have hu1 : utf16Units (String.mk [c]) = [c.toNat] := by
      unfold utf16Units
      rw [hdata]
      simp [hc]
    have hu : utf16Units (t ++ String.mk [c]) = utf16Units t ++ [c.toNat] := by
      rw [utf16Units_append, hu1]
    simp only [hexToBuffer]
    rw [hu]
    simp only [List.length_append, List.length_cons, List.length_nil]
    rw [show ((utf16Units t).length + 0 + 1) / 2 = (utf16Units t).length / 2 from by omega]
    apply List.map_congr_left
    intro i hi
    simp only [List.mem_range] at hi
    have hsl : ((utf16Units t ++ [c.toNat]).drop (2 * i)).take 2 =
        ((utf16Units t).drop (2 * i)).take 2 := by
      rw [List.drop_append_eq_append_drop,
        show 2 * i - (utf16Units t).length = 0 from by omega,
        List.drop_zero, List.take_append_eq_append_take,
        show 2 - ((utf16Units t).drop (2 * i)).length = 0 from by
          simp only [List.length_drop]
          omega,
        List.take_zero, List.append_nil]
    rw [hsl]

theorem c3_hex_failure_amended_witness :
    hexToBuffer ("ab" ++ String.mk ['c']) = hexToBuffer "ab" :=
  c3_hex_failure_amended.2 "ab" 'c' (by decide) (by decide)

theorem bufferToHex_data (b : List Nat) :
    (bufferToHex b).data = (b.map (fun n => (byteHex n).data)).flatten := by
  unfold bufferToHex
  rw [data_join, List.map_map]
  rfl

/-- C2: decoding inverts encoding — for every byte sequence `b`,
`hexToBytes(bytesToHex(b))` succeeds and returns `b`. -/
theorem c2_hex_roundtrip (b : List Nat) (hb : ∀ x ∈ b, x < 256) :
    hexToBuffer (bufferToHex b) = b := by
  have hbyte : ∀ n ∈ b, ((byteHex n).data.map Char.toNat).length = 2 := by
    intro n hn
    rw [List.length_map]
    exact (byteHex_facts ⟨n, hb n hn⟩).1
  have hchars : ∀ c ∈ (bufferToHex b).data, c.toNat < 0x10000 := by
    intro c hc
    rw [bufferToHex_data] at hc
    simp only [List.mem_flatten, List.mem_map] at hc
    obtain ⟨l, ⟨n, hn, rfl⟩, hcl⟩ := hc
    exact ((byteHex_facts ⟨n, hb n hn⟩).2.1 c hcl).2.2
  have hunits : utf16Units (bufferToHex b) =
      (b.map (fun n => (byteHex n).data.map Char.toNat)).flatten := by
    rw [utf16Units_ascii _ hchars, bufferToHex_data, List.map_flatten, List.map_map]
    rfl
  have hulen : (utf16Units (bufferToHex b)).length = 2 * b.length := by
    rw [hunits, flatten_const_length 2]
    · rw [List.length_map]
    · intro x hx
      simp only [List.mem_map] at hx
      obtain ⟨n, hn, rfl⟩ := hx
      exact hbyte n hn
  simp only [hexToBuffer]
  rw [hulen]
  refine List.ext_getElem (by simp) ?_
  intro i hi1 hi2
  have hib : i < b.length := by simpa using hi2
  simp only [List.getElem_map, List.getElem_range]
  have hslice : ((utf16Units (bufferToHex b)).drop (2 * i)).take 2 =
      (b.map (fun n => (byteHex n).data.map Char.toNat)).getD i [] := by
    rw [hunits]
    refine flatten_const_slice 2 _ i ?_ (by simpa using hib)
    intro x hx
    simp only [List.mem_map] at hx
    obtain ⟨n, hn, rfl⟩ := hx
    exact hbyte n hn
  rw [hslice, List.getD_eq_getElem _ _ (by simpa using hib), List.getElem_map]
  exact (byteHex_facts ⟨b[i], hb _ (List.getElem_mem hib)⟩).2.2

theorem c2_hex_roundtrip_witness :
    hexToBuffer (bufferToHex [0, 26, 255]) = [0, 26, 255] :=
  c2_hex_roundtrip [0, 26, 255] (by decide)

/-- C8: the hex encoding of a byte sequence is lowercase and fixed-width —
two zero-padded hex characters per byte, so twice the byte count in length —
and the digest hex rendering is 64 lowercase hex characters. -/
theorem c8_hex_lowercase_width :
    (∀ b : List Nat, (∀ x ∈ b, x < 256) →
      (bufferToHex b).length = 2 * b.length ∧
      ∀ c ∈ (bufferToHex b).data, isLowerHexChar c = true) ∧
    (∀ bytes : List Nat, (sha256HexFromBytes bytes).length = 64 ∧
      ∀ c ∈ (sha256HexFromBytes bytes).data, isLowerHexChar c = true) := by
  constructor
  · intro b hb
    constructor
    · rw [string_length_eq_data, bufferToHex_data, flatten_const_length 2]
      · rw [List.length_map]
      · intro x hx
        simp only [List.mem_map] at hx
        obtain ⟨n, hn, rfl⟩ := hx
        exact (byteHex_facts ⟨n, hb n hn⟩).1
    · intro c hc
      rw [bufferToHex_data] at hc
      simp only [List.mem_flatten, List.mem_map] at hc
      obtain ⟨l, ⟨n, hn, rfl⟩, hcl⟩ := hc
      exact ((byteHex_facts ⟨n, hb n hn⟩).2.1 c hcl).1
  · intro bytes
    exact ⟨sha256HexFromBytes_length bytes,
      fun c hc => (sha256Hex_chars bytes c hc).1⟩

theorem c8_hex_lowercase_width_witness :
    (bufferToHex [0, 171]).length = 2 * [0, 171].length :=
  (c8_hex_lowercase_width.1 [0, 171] (by decide)).1

theorem range_filter_bne_eq_zip (xs : List Nat) : ∀ ys : List Nat,
    ((List.range (min xs.length ys.length)).filter
      (fun i => xs.getD i 0 != ys.getD i 0)).length =
    ((xs.zip ys).filter (fun p => p.1 != p.2)).length := by
  induction xs with
  | nil => intro ys; simp
  | cons x xs ih =>
    intro ys
    cases ys with
    | nil => simp
    | cons y ys =>
      simp only [List.length_cons, Nat.succ_min_succ, List.range_succ_eq_map,
        List.filter_cons, List.getD_cons_zero, List.zip_cons_cons]
      rw [List.filter_map]
      have hpred : ((List.range (min xs.length ys.length)).filter
          ((fun i => (x :: xs).getD i 0 != (y :: ys).getD i 0) ∘ Nat.succ)).length =
          ((xs.zip ys).filter (fun p => p.1 != p.2)).length := by
        rw [show ((fun i => (x :: xs).getD i 0 != (y :: ys).getD i 0) ∘ Nat.succ) =
            (fun i => xs.getD i 0 != ys.getD i 0) from rfl]
        exact ih ys
      by_cases hxy : (x != y) = true
      · rw [if_pos hxy, if_pos hxy, List.length_cons, List.length_cons,
          List.length_map, hpred]
      · rw [if_neg hxy, if_neg hxy, List.length_map, hpred]

/-- `hamming` never exceeds the shorter of its two inputs. -/
theorem hamming_le (a b : String) :
    hamming a b ≤ min (utf16Units a).length (utf16Units b).length := by
  unfold hamming
  calc ((List.range (min (utf16Units a).length (utf16Units b).length)).filter _).length
      ≤ (List.range (min (utf16Units a).length (utf16Units b).length)).length :=
        List.length_filter_le _ _
    _ = _ := List.length_range _

/-- A digest's bit rendering is exactly 256 characters. -/
theorem digest_bits_length (bytes : List Nat) :
    (hexToBits (sha256HexFromBytes bytes)).length = 256 := by
  have h := hexToBits_hex (sha256HexFromBytes bytes)
    (fun c hc => (sha256Hex_chars bytes c hc).2.1)
  rw [h.2, sha256HexFromBytes_length]

/-- A digest's bit rendering consists of sub-astral characters, so its
UTF-16 unit count equals its character count, 256. -/
theorem digest_bits_units (bytes : List Nat) :
    (utf16Units (hexToBits (sha256HexFromBytes bytes))).length = 256 := by
  have hhex : ∀ c ∈ (sha256HexFromBytes bytes).data, c ∈ hexDigitChars :=
    fun c hc => (sha256Hex_chars bytes c hc).2.1
  have heq := (hexToBits_hex _ hhex).1
  have hascii : ∀ c ∈ (hexToBits (sha256HexFromBytes bytes)).data, c.toNat < 0x10000 := by
    intro c hc
    rw [heq, data_join, List.map_map] at hc
    simp only [List.mem_flatten, List.mem_map, Function.comp] at hc
    obtain ⟨l, ⟨d, _, rfl⟩, hcl⟩ := hc
    simp only [bits4, List.mem_map] at hcl
    obtain ⟨i, _, rfl⟩ := hcl
    split
    · decide
    · decide
  rw [utf16Units_ascii _ hascii, List.length_map, ← string_length_eq_data,
    digest_bits_length]

/-- Structure of `run`: six rows, and the first row's bits are the digest
bits of the unmodified input. -/
theorem run_head_bits (input : String) :
    (run input).length = 6 ∧
    ((run input).headD ⟨"", "", "", []⟩).bits =
      hexToBits (sha256HexFromBytes (utf8Encode input)) := ⟨rfl, rfl⟩

/-- Every row of `run` carries the bit rendering of some digest. -/
theorem run_mem_bits (input : String) (r : DigestResult) (hr : r ∈ run input) :
    ∃ bs, r.bits = hexToBits (sha256HexFromBytes bs) := by
  unfold run at hr
  simp only [List.mem_map] at hr
  obtain ⟨v, _, rfl⟩ := hr
  exact ⟨v.bytes, rfl⟩

/-- The loop of `hamming`, restated over the zipped unit lists. -/
theorem hamming_eq_zip (a b : String) :
    hamming a b =
      (((utf16Units a).zip (utf16Units b)).filter (fun p => p.1 != p.2)).length := by
  unfold hamming
  exact range_filter_bne_eq_zip _ _

theorem zip_self_filter_bne (l : List Nat) :
    ((l.zip l).filter (fun p => p.1 != p.2)).length = 0 := by
  induction l with
  | nil => rfl
  | cons x xs ih => simpa [List.zip_cons_cons, List.filter_cons] using ih

/-- A string is at Hamming distance 0 from itself. -/
theorem hamming_self (a : String) : hamming a a = 0 := by
  rw [hamming_eq_zip]
  exact zip_self_filter_bne _

/-- The SHA-256 digest of the empty byte sequence (FIPS 180-4 test value). -/
theorem sha256HexFromBytes_nil :
    sha256HexFromBytes [] =
      "e3b0c44298fc1c149afbf4c8996fb92427ae41e4649b934ca495991b7852b855" := by
  decide

/-- The SHA-256 digest of the single space byte. -/
theorem sha256HexFromBytes_space :
    sha256HexFromBytes [32] =
      "36a9e7f1c95b82ffb99743e0c5c4ce95d83c9a430aac59f84ef3cbfab6145068" := by
  decide

/-- Bit expansion of the empty input's digest. -/
theorem hexToBits_digest_nil :
    hexToBits "e3b0c44298fc1c149afbf4c8996fb92427ae41e4649b934ca495991b7852b855" =
      "1110001110110000110001000100001010011000111111000001110000010100100110101111101111110100110010001001100101101111101110010010010000100111101011100100000111100100011001001001101110010011010011001010010010010101100110010001101101111000010100101011100001010101" := by
  decide

/-- Bit expansion of the single space byte's digest. -/
theorem hexToBits_digest_space :
    hexToBits "36a9e7f1c95b82ffb99743e0c5c4ce95d83c9a430aac59f84ef3cbfab6145068" =
      "0011011010101001111001111111000111001001010110111000001011111111101110011001011101000011111000001100010111000100110011101001010111011000001111001001101001000011000010101010110001011001111110000100111011110011110010111111101010110110000101000101000001101000" := by
  decide

/-- The Hamming distance between the two digests' bit strings is 142. -/
theorem hamming_digests_empty_space :
    hamming
      "1110001110110000110001000100001010011000111111000001110000010100100110101111101111110100110010001001100101101111101110010010010000100111101011100100000111100100011001001001101110010011010011001010010010010101100110010001101101111000010100101011100001010101"
      "0011011010101001111001111111000111001001010110111000001011111111101110011001011101000011111000001100010111000100110011101001010111011000001111001001101001000011000010101010110001011001111110000100111011110011110010111111101010110110000101000101000001101000" = 142 := by
  rw [hamming_eq_zip]
  decide

/-- The comparison table for the empty input, fully evaluated. -/
theorem comparisonTable_empty :
    comparisonTable "" =
      [("original",
        "e3b0c44298fc1c149afbf4c8996fb92427ae41e4649b934ca495991b7852b855", none),
       ("append space",
        "36a9e7f1c95b82ffb99743e0c5c4ce95d83c9a430aac59f84ef3cbfab6145068",
        some (142, "142/256 bits changed (55.5%)")),
       ("change first char",
        "e3b0c44298fc1c149afbf4c8996fb92427ae41e4649b934ca495991b7852b855",
        some (0, "0/256 bits changed (0.0%)")),
       ("flip one bit in first byte",
        "e3b0c44298fc1c149afbf4c8996fb92427ae41e4649b934ca495991b7852b855",
        some (0, "0/256 bits changed (0.0%)")),
       ("flip 0x80 bit in first byte",
        "e3b0c44298fc1c149afbf4c8996fb92427ae41e4649b934ca495991b7852b855",
        some (0, "0/256 bits changed (0.0%)")),
       ("change last char",
        "e3b0c44298fc1c149afbf4c8996fb92427ae41e4649b934ca495991b7852b855",
        some (0, "0/256 bits changed (0.0%)"))] := by
  have h1 : utf8Encode "" = [] := rfl
  have h2 : utf8Encode ("" ++ " ") = [32] := rfl
  have h2' : utf8Encode " " = [32] := rfl
  have hm1 : mutateCharChange "" 0 "Z" = [] := rfl
  have hm2 : mutateByteFlip "" 0 1 = [] := rfl
  have hm3 : mutateByteFlip "" 0 0x80 = [] := rfl
  have hm4 : mutateCharChange "" (-1) "z" = [] := rfl
  have hne : ("1110001110110000110001000100001010011000111111000001110000010100100110101111101111110100110010001001100101101111101110010010010000100111101011100100000111100100011001001001101110010011010011001010010010010101100110010001101101111000010100101011100001010101" : String) ≠ "" := by decide
  simp [comparisonTable, run, buildVariants, List.enum, List.enumFrom, toFixedOne,
    h1, h2, h2', hm1, hm2, hm3, hm4, sha256HexFromBytes_nil, sha256HexFromBytes_space,
    hexToBits_digest_nil, hexToBits_digest_space, hne,
    hamming_digests_empty_space, hamming_self]
  all_goals decide

/-- C6: `hamming` counts exactly the positions, over the shorter of the two
lengths, at which the two strings differ (stated via `zip`, which truncates
to the shorter list); and every distance the comparison table reports is at
most 256 (it is a `Nat`, hence at least 0), because digest bit strings have
exactly 256 units. -/
theorem c6_hamming_spec_bounds :
    (∀ a b : String, hamming a b =
      (((utf16Units a).zip (utf16Units b)).filter (fun p => p.1 != p.2)).length) ∧
    (∀ input : String, ∀ row ∈ comparisonTable input, ∀ d s,
      row.2.2 = some (d, s) → d ≤ 256) := by
  constructor
  · intro a b
    exact hamming_eq_zip a b
  · intro input row hrow d s hds
    have hlen6 : (run input).length ≠ 0 := by
      rw [(run_head_bits input).1]
      decide
    have hbase : (if (run input).length ≠ 0
        then ((run input).headD ⟨"", "", "", []⟩).bits else "") =
        hexToBits (sha256HexFromBytes (utf8Encode input)) := by
      rw [if_pos hlen6, (run_head_bits input).2]
    simp only [comparisonTable, hbase, List.mem_map] at hrow
    obtain ⟨p, hp, rfl⟩ := hrow
    by_cases h0 : p.1 = 0
    · rw [if_pos h0] at hds
      simp at hds
    · rw [if_neg h0] at hds
      simp only [Option.some.injEq, Prod.mk.injEq] at hds
      obtain ⟨hd, -⟩ := hds
      subst hd
      split
      · have h1 := hamming_le (hexToBits (sha256HexFromBytes (utf8Encode input))) p.2.bits
        have h2 := digest_bits_units (utf8Encode input)
        omega
      · exact Nat.zero_le _

theorem c6_hamming_spec_bounds_witness : (142 : Nat) ≤ 256 :=
  c6_hamming_spec_bounds.2 ""
    ("append space", "36a9e7f1c95b82ffb99743e0c5c4ce95d83c9a430aac59f84ef3cbfab6145068",
      some (142, "142/256 bits changed (55.5%)"))
    (by rw [comparisonTable_empty]
        exact List.mem_cons_of_mem _ (List.mem_cons_self _ _))
    142 "142/256 bits changed (55.5%)" rfl

/-- C7: on every hex string, `hexToBits` expands each hex character into
its 4-bit binary representation, zero-padded to four characters and most
significant bit first, concatenated in input order; its output has four
characters per input character, so a 64-character digest hex string yields
a 256-character bit string. -/
theorem c7_hexToBits_spec (s : String) (hs : ∀ c ∈ s.data, c ∈ hexDigitChars) :
    hexToBits s = String.join (s.data.map (fun c => bits4 (hexVal c))) ∧
    (hexToBits s).length = 4 * s.length ∧
    (∀ bytes : List Nat, (hexToBits (sha256HexFromBytes bytes)).length = 256) :=
  ⟨(hexToBits_hex s hs).1, (hexToBits_hex s hs).2, fun bytes => digest_bits_length bytes⟩

theorem c7_hexToBits_spec_witness :
    hexToBits "0f" = String.join ("0f".data.map (fun c => bits4 (hexVal c))) ∧
    (hexToBits "0f").length = 4 * ("0f" : String).length :=
  ⟨(c7_hexToBits_spec "0f" (by decide)).1, (c7_hexToBits_spec "0f" (by decide)).2.1⟩

/-- C4: with the WebCrypto provider abstracted as the specification
directs, the repository's wrappers preserve the scheme's correctness: for a
provider whose generated pair satisfies the sign/verify invariant, and any
message, verifying the signature produced over the same message with the
generated pair succeeds.  Both wrappers pass the same UTF-8 encoding of the
message to the provider, which is what the theorem checks about the
repository's code. -/
theorem c4_sign_verify_correct {Priv Pub Sig : Type} (P : SignatureProvider Priv Pub Sig)
    (hP : SchemeCorrect P) (m : String) :
    verifySignature P m (signMessage P m (generateKeyPair P).privateKey)
      ((generateKeyPair P).publicKey) = true :=
  hP (utf8Encode m)

/-- A concrete correct provider, used to witness the sign/verify theorem:
signing appends the key to the message and verification recomputes it. -/
def toyProvider : SignatureProvider (List Nat) (List Nat) (List Nat) where
  generateKey := ⟨[7], [7]⟩
  sign := fun msg k => msg ++ k
  verify := fun msg s k => s == msg ++ k

theorem c4_sign_verify_correct_witness :
    verifySignature toyProvider "hi"
      (signMessage toyProvider "hi" (generateKeyPair toyProvider).privateKey)
      ((generateKeyPair toyProvider).publicKey) = true :=
  c4_sign_verify_correct toyProvider (fun msg => by simp [toyProvider, SchemeCorrect]) "hi"

/-- C9: the comparison table has six rows; the first (original) row's
comparison cell is `none`, rendered as the bare placeholder `"-"` — absent,
not the number zero — while every other row carries the Hamming distance
against the original row's bits together with its cell text, in which the
percentage `distance / 256 * 100` is rendered with one decimal place
(`toFixedOne`). -/
theorem c9_table_structure (input : String) :
    (comparisonTable input).length = 6 ∧
    ((comparisonTable input).getD 0 ("", "", some (0, ""))).2.2 = none ∧
    (∀ i, 0 < i → i < 6 → ∃ d,
      ((comparisonTable input).getD i ("", "", none)).2.2 =
        some (d, toString d ++ "/256 bits changed (" ++ toFixedOne d ++ "%)") ∧
      d = hamming ((run input).headD ⟨"", "", "", []⟩).bits
            ((run input).getD i ⟨"", "", "", []⟩).bits) := by
  have hne : hexToBits (sha256HexFromBytes (utf8Encode input)) ≠ "" := by
    intro h
    have h2 := digest_bits_length (utf8Encode input)
    rw [h] at h2
    exact absurd h2 (by decide)
  refine ⟨rfl, rfl, ?_⟩
  intro i h1 h6
  interval_cases i <;>
    exact ⟨_, by simp [comparisonTable, run, buildVariants, List.enum, List.enumFrom, hne], rfl⟩

theorem c9_table_structure_witness :
    ((comparisonTable "a").getD 0 ("", "", some (0, ""))).2.2 = none :=
  (c9_table_structure "a").2.1

/-- C1 counterexample: on the empty input the claim fails.  The
`append space` variant is `encode("" + " ") = [32]`, not the empty byte
sequence, and consequently its reported Hamming distance is the distance
between the digest of `""` and the digest of `" "` (142), not `0`. -/
theorem c1_empty_input_counterexample :
    ¬ ((∀ v ∈ buildVariants "", v.bytes = ([] : List Nat)) ∧
       (comparisonTable "").map (fun row => Option.map Prod.fst row.2.2) =
         [none, some 0, some 0, some 0, some 0, some 0]) := by
  intro h
  have hv := h.1 ⟨"append space", utf8Encode ("" ++ " ")⟩
    (List.mem_cons_of_mem _ (List.mem_cons_self _ _))
  exact absurd hv (by decide)

/-- C1 (amended): on the empty input, five of the six variants (all except
`append space`) are the empty byte sequence; the `append space` variant is
the single space byte `[32]`.  Accordingly `run("")` reports distance `0`
for the four genuinely degenerate mutations, while the `append space` row
reports `142`, the Hamming distance between the SHA-256 digests of the
empty input and of a single space. -/
theorem c1_empty_input_amended :
    (buildVariants "").map Variant.bytes = [[], [32], [], [], [], []] ∧
    (comparisonTable "").map (fun row => Option.map Prod.fst row.2.2) =
      [none, some 142, some 0, some 0, some 0, some 0] := by
  constructor
  · decide
  · rw [comparisonTable_empty]
    rfl
